import Mathlib

/-!
Verification development for the Graph Construction & Incremental
Semantic-Merge Engine of the tektite-vscode-ext repository.

The TypeScript sources embedded here are:
  - `generateGraphFromFiles` from `src/constants.ts` (structural parser and
    graph builder),
  - the merge effect, `cosineSimilarity`, `cleanCodeForEmbedding` and
    `handleRecalculateSemanticGraph` from `src/webview-ui/src/App.tsx`.

Modelling conventions:
  - JavaScript numbers are modelled as `ℚ`; the impure numeric primitives the
    builder consumes (`Math.random`, `Math.cos`, `Math.sin`) are passed in
    explicitly through a `Prims` record, with `Math.random()` results given as
    a stream indexed by consumption order.  `Math.sqrt` (used only by
    `cosineSimilarity`) is passed as an explicit function argument.
  - TypeScript optional fields become `Option`; JavaScript truthiness on a
    string is `≠ ""`, on an optional field `Option.isSome` (arrays are always
    truthy in JS, including `[]`), and on `isStale` it is `= some true`.
  - The JS `FileMap` object is modelled as an association list in key
    insertion order (`Object.entries` order for string keys).
-/

namespace Tektite

/-! ## Character and string helpers (JS regex building blocks) -/

/-- JS `\s` character class (ASCII part: space, tab, newline, CR, FF, VT). -/
def isSpaceChar (c : Char) : Bool :=
  c = ' ' || c = '\t' || c = '\n' || c = '\r' || c = Char.ofNat 12 || c = Char.ofNat 11

/-- JS `\w` / word character for `\b` boundaries: `[A-Za-z0-9_]`. -/
def isWordChar (c : Char) : Bool :=
  c.isAlpha || c.isDigit || c = '_'

/-- First character of a JS identifier in the builder's regex: `[a-zA-Z_]`. -/
def isIdentStartCh (c : Char) : Bool :=
  c.isAlpha || c = '_'

/-- Subsequent identifier characters: `[a-zA-Z0-9_]`. -/
def isIdentCh (c : Char) : Bool :=
  c.isAlpha || c.isDigit || c = '_'

/-- `String.prototype.split('\n')` on a character list. -/
def splitChars : List Char → List (List Char)
  | [] => [[]]
  | c :: rest =>
    if c = '\n' then [] :: splitChars rest
    else
      match splitChars rest with
      | [] => [[c]]
      | l :: ls => (c :: l) :: ls

/-- `code.split('\n')` as a list of line strings. -/
def strSplitLines (s : String) : List String :=
  (splitChars s.data).map String.mk

/-- Substring check on lists (`String.prototype.includes`). -/
def hasSub (hay sub : List Char) : Bool :=
  sub.isPrefixOf hay ||
    match hay with
    | [] => false
    | _ :: t => hasSub t sub

/-- `filename.includes(sub)`. -/
def strContains (s sub : String) : Bool :=
  hasSub s.data sub.data

/-- `filename.endsWith(sub)`. -/
def strEndsWith (s sub : String) : Bool :=
  sub.data.isSuffixOf s.data

/-- `String.prototype.trim()` (JS trims whitespace at both ends). -/
def strTrim (s : String) : String :=
  String.mk (((s.data.dropWhile isSpaceChar).reverse.dropWhile isSpaceChar).reverse)

/-- JS string truthiness combinator `a || b` on strings. -/
def jsStrOr (a b : String) : String :=
  if a = "" then b else a

/-! ## Data model (`src/webview-ui/src/components/GraphCanvas.tsx` types) -/

inductive NodeType where
  | MODULE | FILE | FUNCTION | NOTE
deriving DecidableEq, Repr

inductive EdgeType where
  | CALLS | IMPORTS | READS_WRITES | TESTED_BY | SEMANTIC
deriving DecidableEq, Repr

inductive Lang where
  | typescript | python | markdown | text | json
deriving DecidableEq, Repr

structure Metadata where
  why : Option String
  tradeOff : Option String
  status : Option String
deriving DecidableEq, Repr

structure NodeData where
  id : String
  type : NodeType
  label : String
  language : Option Lang
  code : Option String
  metadata : Option Metadata
  complexity : Option Int
  x : Option ℚ
  y : Option ℚ
  embedding : Option (List ℚ)
  isStale : Option Bool
deriving DecidableEq, Repr

structure LinkData where
  source : String
  target : String
  type : EdgeType
  weight : Option ℚ
deriving DecidableEq, Repr

structure GraphData where
  nodes : List NodeData
  links : List LinkData
deriving DecidableEq, Repr

/-! ## Structural parser (`generateGraphFromFiles`, pass 1 inner loop)

The header regex in `src/constants.ts` is
`/^def\s+([a-zA-Z_][a-zA-Z0-9_]*)\s*\(([^)]*)\):/`, applied to a single line
(anchored at the line start, trailing characters after the `:` allowed). -/

/-- Consume `[^)]*` then require `):` (the tail of the header regex). -/
def checkParams : List Char → Bool
  | [] => false
  | ')' :: rest =>
    match rest with
    | ':' :: _ => true
    | _ => false
  | _ :: rest => checkParams rest

/-- Match the header regex against one line; return the captured name. -/
def parseDefHeader (l : List Char) : Option (List Char) :=
  match l with
  | 'd' :: 'e' :: 'f' :: c :: rest =>
    if isSpaceChar c then
      match (c :: rest).dropWhile isSpaceChar with
      | c0 :: rest3 =>
        if isIdentStartCh c0 then
          match (rest3.dropWhile isIdentCh).dropWhile isSpaceChar with
          | '(' :: rest6 =>
            if checkParams rest6 then some (c0 :: rest3.takeWhile isIdentCh) else none
          | _ => none
        else none
      | [] => none
    else none
  | _ => none

/-- `line.trim() === ''`. -/
def lineIsBlank (s : String) : Bool :=
  s.data.all isSpaceChar

/-- `line.startsWith(c)` for a single character. -/
def startsWithCh (s : String) (c : Char) : Bool :=
  match s.data with
  | [] => false
  | a :: _ => a = c

/-- The body-extraction `while` loop: keep blank lines and lines starting with
space/tab/`#`/`@`; stop at the first other line. -/
def takeBody : List String → List String
  | [] => []
  | l :: rest =>
    if lineIsBlank l then l :: takeBody rest
    else if startsWithCh l ' ' || startsWithCh l '\t' ||
            startsWithCh l '#' || startsWithCh l '@' then l :: takeBody rest
    else []

/-- The `for (let i = 0; ...)` scan over the file's lines: every line matching
the header regex yields `(funcName, fullCode)` where `fullCode` is the header
line joined with the extracted body by `'\n'`. -/
def scanDefs : List String → List (String × String)
  | [] => []
  | l :: rest =>
    match parseDefHeader l.data with
    | some nameChars =>
      (String.mk nameChars, String.intercalate "\n" (l :: takeBody rest)) :: scanDefs rest
    | none => scanDefs rest

/-- Function extraction runs only for `filename.endsWith('.py')`. -/
def pyDefs (filename code : String) : List (String × String) :=
  if strEndsWith filename ".py" then scanDefs (strSplitLines code) else []

/-! ## Graph builder (`generateGraphFromFiles`) -/

/-- The impure numeric primitives consumed by the builder.  `rand n` is the
result of the `n`-th `Math.random()` call (consumption order: per function
node, first `complexity`, then the `x` jitter, then the `y` jitter);
`cos2pi q` / `sin2pi q` stand for `Math.cos(q * 2 * Math.PI)` /
`Math.sin(q * 2 * Math.PI)` as computed by the host floating-point library. -/
structure Prims where
  rand : ℕ → ℚ
  cos2pi : ℚ → ℚ
  sin2pi : ℚ → ℚ

/-- Initial seed position of a file's module node: center for filenames
containing `main`/`index`, otherwise on the orbit circle of radius 350. -/
def seedPos (p : Prims) (total fi : ℕ) (fname : String) : ℚ × ℚ :=
  if strContains fname "main" || strContains fname "index" then (0, 0)
  else (p.cos2pi ((fi : ℚ) / (total : ℚ)) * 350, p.sin2pi ((fi : ℚ) / (total : ℚ)) * 350)

/-- The module/file node pushed for every file. -/
def moduleNode (p : Prims) (total fi : ℕ) (fname code : String) : NodeData :=
  let sp := seedPos p total fi fname
  let isPython := strEndsWith fname ".py"
  { id := "file-" ++ fname
    type := if isPython then .MODULE else .FILE
    label := fname
    language := some (if strEndsWith fname ".py" then .python
      else if strEndsWith fname ".md" then .markdown
      else if strEndsWith fname ".json" then .json else .text)
    code := some code
    metadata := none
    complexity := some (if isPython then 10 else 0)
    x := some sp.1
    y := some sp.2
    embedding := none
    isStale := none }

/-- The function node pushed for one extracted definition; `c` is the index of
the first of the three `Math.random()` draws it consumes. -/
def mkFnNode (p : Prims) (c : ℕ) (ix iy : ℚ) (name code : String) : NodeData :=
  { id := "fn-" ++ name
    type := .FUNCTION
    label := name
    language := some .python
    code := some code
    metadata := some
      { why := some (if strContains name "recursive"
          then "Recursive Implementation" else "Logic Block")
        tradeOff := none
        status := some "stable" }
    complexity := some (⌊p.rand c * 20⌋ + 1)
    x := some (ix + (p.rand (c + 1) * 80 - 80 / 2))
    y := some (iy + (p.rand (c + 2) * 80 - 80 / 2))
    embedding := none
    isStale := none }

/-- Function nodes of one file, threading the `Math.random()` counter. -/
def fnNodes (p : Prims) (ix iy : ℚ) : ℕ → List (String × String) → List NodeData
  | _, [] => []
  | c, (name, code) :: rest => mkFnNode p c ix iy name code :: fnNodes p ix iy (c + 3) rest

/-- Pass 1 node list (module node then its function nodes, per file in
insertion order), threading file index and random counter. -/
def buildNodes (p : Prims) (total : ℕ) : ℕ → ℕ → List (String × String) → List NodeData
  | _, _, [] => []
  | fi, c, (fname, code) :: rest =>
    let defs := pyDefs fname code
    let sp := seedPos p total fi fname
    moduleNode p total fi fname code ::
      (fnNodes p sp.1 sp.2 c defs ++ buildNodes p total (fi + 1) (c + 3 * defs.length) rest)

/-- Pass 1 `IMPORTS` links (one per extracted function, in push order). -/
def buildImportLinks : List (String × String) → List LinkData
  | [] => []
  | (fname, code) :: rest =>
    (pyDefs fname code).map (fun d => ⟨"fn-" ++ d.1, "file-" ++ fname, .IMPORTS, none⟩)
      ++ buildImportLinks rest

/-- All extracted function names, in first-pass push order, with multiplicity. -/
def allFnNames : List (String × String) → List String
  | [] => []
  | (fname, code) :: rest => (pyDefs fname code).map Prod.fst ++ allFnNames rest

/-- Key dedup of a JS `Map` built by repeated `set` (first occurrence keeps
its position; the stored value `fn-<name>` is a function of the key). -/
def dedupAux (seen : List String) : List String → List String
  | [] => []
  | x :: rest => if seen.contains x then dedupAux seen rest else x :: dedupAux (x :: seen) rest

/-- Iteration order of `definedFunctions` in pass 2. -/
def definedNames (files : List (String × String)) : List String :=
  dedupAux [] (allFnNames files)

/-! ### Pass 2: the call-graph regex `new RegExp(`\\b<name>\\(`)` -/

/-- `\b` between an optional previous character and the first pattern
character: word-ness differs (out-of-bounds counts as non-word). -/
def boundaryBefore (prev : Option Char) (first : Char) : Bool :=
  (match prev with
   | none => false
   | some c => isWordChar c) != isWordChar first

/-- `callRegex.test(text)`: scan every position for a `\b`-anchored literal
occurrence of `pat` (which is `<name>(` and hence non-empty). -/
def scanCallRef (pat : List Char) (first : Char) : Option Char → List Char → Bool
  | _, [] => false
  | prev, c :: rest =>
    (boundaryBefore prev first && pat.isPrefixOf (c :: rest)) ||
      scanCallRef pat first (some c) rest

/-- `new RegExp(`\\b${name}\\(`).test(text)`. -/
def containsCallRef (name : String) (text : String) : Bool :=
  match name.data with
  | [] => scanCallRef ['('] '(' none text.data
  | c0 :: _ => scanCallRef (name.data ++ ['(']) c0 none text.data

/-- Whether pass 2 emits a `CALLS` edge from `src` to the function named `nm`:
skipped when `src.code` is falsy; a self-reference is tested against the code
with the header line dropped, any other name against the full code. -/
def callHit (src : NodeData) (nm : String) : Bool :=
  match src.code with
  | none => false
  | some codeStr =>
    if codeStr = "" then false
    else if src.label == nm then
      containsCallRef nm (String.intercalate "\n" ((strSplitLines codeStr).drop 1))
    else containsCallRef nm codeStr

/-- Pass 2 links for one source node, over `definedFunctions` in order. -/
def callLinksFor (names : List String) (src : NodeData) : List LinkData :=
  names.flatMap fun nm => if callHit src nm then [⟨src.id, "fn-" ++ nm, .CALLS, none⟩] else []

/-- Pass 2: `nodes.filter(n => n.type === FUNCTION).forEach(...)`. -/
def callLinks (names : List String) (nodes : List NodeData) : List LinkData :=
  (nodes.filter fun n => n.type == .FUNCTION).flatMap (callLinksFor names)

/-- `generateGraphFromFiles` from `src/constants.ts`. -/
def generateGraphFromFiles (p : Prims) (files : List (String × String)) : GraphData :=
  let nodes := buildNodes p files.length 0 0 files
  { nodes := nodes
    links := buildImportLinks files ++ callLinks (definedNames files) nodes }

/-! ## Identity merge engine (the `useEffect` on `fileMap` in `App.tsx`) -/

/-- Per-node merge: `prevGraph.nodes.find(old => old.id === newNode.id)`, then
the three-way case split on the lookup and on `oldNode.code === newNode.code`. -/
def mergeNode (prevNodes : List NodeData) (newNode : NodeData) : NodeData :=
  match prevNodes.find? (fun old => old.id == newNode.id) with
  | some oldNode =>
    if oldNode.code == newNode.code then
      { newNode with embedding := oldNode.embedding, isStale := oldNode.isStale }
    else
      { newNode with embedding := oldNode.embedding, isStale := some true }
  | none => { newNode with isStale := some true }

/-- The merge reducer `(prevGraph, newStructure) ↦ mergedGraph`. -/
def mergeGraphs (prevGraph newStructure : GraphData) : GraphData :=
  let mergedNodes := newStructure.nodes.map (mergeNode prevGraph.nodes)
  let existingSemanticEdges := prevGraph.links.filter fun l => l.type == .SEMANTIC
  let validSemanticEdges := existingSemanticEdges.filter fun l =>
    (mergedNodes.any fun n => n.id == l.source) && (mergedNodes.any fun n => n.id == l.target)
  { nodes := mergedNodes
    links := newStructure.links ++ validSemanticEdges }

/-! ## `cleanCodeForEmbedding` (`App.tsx`)

Four sequential global regex replacements; each is modelled by a character
scan with the same observable result on the replaced string. -/

/-- Region scan for the first `:` reachable by `.*?` (no newline) — the tail
of a `^def\s+.*?:` match; returns the suffix after the `:`. -/
def colonBeforeNewline : List Char → Option (List Char)
  | [] => none
  | ':' :: rest => some rest
  | '\n' :: _ => none
  | _ :: rest => colonBeforeNewline rest

/-- Try the `def\s+.*?:` match at a line-start position.  Note `\s` also
matches newlines, so the whitespace run may span lines; the lazy `.*?` (which
cannot match a newline) then reaches the first `:` before the next newline
after the run.  Returns the suffix after the matched region. -/
def tryDefMatch : List Char → Option (List Char)
  | 'd' :: 'e' :: 'f' :: c :: rest =>
    if isSpaceChar c then colonBeforeNewline ((c :: rest).dropWhile isSpaceChar)
    else none
  | _ => none

/-- Step 1: `cleaned.replace(/^def\s+.*?:/gm, '')`.  `atStart` tracks whether
the scan sits at a `^` position; fuel is the input length (each step consumes
at least one character, so it never runs out). -/
def stripDefsAux : ℕ → Bool → List Char → List Char
  | 0, _, s => s
  | _ + 1, _, [] => []
  | fuel + 1, atStart, c :: rest =>
    if atStart then
      match tryDefMatch (c :: rest) with
      | some suffix => stripDefsAux fuel false suffix
      | none => c :: stripDefsAux fuel (c = '\n') rest
    else c :: stripDefsAux fuel (c = '\n') rest

def stripDefs (s : List Char) : List Char :=
  stripDefsAux s.length true s

/-- Scan for the first closing triple quote `qqq`; return the suffix after it
(the lazy `[\s\S]*?` of the docstring regex). -/
def afterTripleQuote (q : Char) : List Char → Option (List Char)
  | a :: b :: c :: rest =>
    if a = q && b = q && c = q then some rest else afterTripleQuote q (b :: c :: rest)
  | _ => none

/-- Step 2: `cleaned.replace(/("""[\s\S]*?"""|'''[\s\S]*?''')/g, '')`. -/
def stripTripleAux (squote : Char) : ℕ → List Char → List Char
  | 0, s => s
  | _ + 1, [] => []
  | fuel + 1, a :: tail =>
    match tail with
    | b :: c :: rest =>
      if a = '"' && b = '"' && c = '"' then
        match afterTripleQuote '"' rest with
        | some suffix => stripTripleAux squote fuel suffix
        | none => a :: stripTripleAux squote fuel tail
      else if a = squote && b = squote && c = squote then
        match afterTripleQuote squote rest with
        | some suffix => stripTripleAux squote fuel suffix
        | none => a :: stripTripleAux squote fuel tail
      else a :: stripTripleAux squote fuel tail
    | _ => a :: stripTripleAux squote fuel tail

def stripTriple (s : List Char) : List Char :=
  stripTripleAux (Char.ofNat 39) s.length s

/-- Step 3: `cleaned.replace(/#.*$/gm, '')` — drop from each `#` to its line
end (`inComment` is reset at every newline). -/
def stripCommentsAux : Bool → List Char → List Char
  | _, [] => []
  | inComment, c :: rest =>
    if c = '\n' then c :: stripCommentsAux false rest
    else if inComment then stripCommentsAux true rest
    else if c = '#' then stripCommentsAux true rest
    else c :: stripCommentsAux false rest

/-- Step 4: `cleaned.replace(/^\s*[\r\n]/gm, '').trim()` — on `\n`-separated
text this removes every whitespace-only line (a whitespace-only final segment
without a newline is left for `trim`), then trims. -/
def dropBlankLinesAndTrim (s : List Char) : String :=
  strTrim (String.intercalate "\n"
    (((splitChars s).filter fun l => ¬ l.all isSpaceChar).map String.mk))

/-- `cleanCodeForEmbedding` from `App.tsx`. -/
def cleanCodeForEmbedding (rawCode : String) : String :=
  if rawCode = "" then ""
  else dropBlankLinesAndTrim (stripCommentsAux false (stripTriple (stripDefs rawCode.data)))

/-! ## Cosine similarity and the semantic pass (`App.tsx`) -/

/-- `vecA.reduce((sum, a, i) => sum + a * vecB[i], 0)` (equal-length vectors). -/
def dotProd : List ℚ → List ℚ → ℚ
  | a :: as, b :: bs => a * b + dotProd as bs
  | _, _ => 0

/-- `vec.reduce((sum, a) => sum + a * a, 0)`. -/
def sumSquares (v : List ℚ) : ℚ :=
  dotProd v v

/-- `cosineSimilarity` from `App.tsx`; `sq` is `Math.sqrt`. -/
def cosineSimilarity (sq : ℚ → ℚ) (vecA vecB : List ℚ) : ℚ :=
  let dp := dotProd vecA vecB
  let magA := sq (sumSquares vecA)
  let magB := sq (sumSquares vecB)
  if magA * magB = 0 then 0 else dp / (magA * magB)

/-- Eligibility filter of `handleRecalculateSemanticGraph`:
`n.type === FUNCTION && n.language === 'python' && n.code && (!n.embedding || n.isStale)`. -/
def eligibleForEmbedding (n : NodeData) : Bool :=
  n.type == .FUNCTION && n.language == some .python &&
    (match n.code with | none => false | some s => !(s = "")) &&
    (n.embedding.isNone || n.isStale == some true)

/-- `cleanCodeForEmbedding(node.code || '') || node.code || node.label`. -/
def contentToEmbed (n : NodeData) : String :=
  jsStrOr (cleanCodeForEmbedding (n.code.getD "")) (jsStrOr (n.code.getD "") n.label)

/-- `newNodes.findIndex(n => n.id === node.id)` followed by the in-place
update `newNodes[idx] = { ...newNodes[idx], embedding, isStale: false }`. -/
def updateFirstById (nid : String) (e : List ℚ) : List NodeData → List NodeData
  | [] => []
  | n :: rest =>
    if n.id == nid then { n with embedding := some e, isStale := some false } :: rest
    else n :: updateFirstById nid e rest

/-- The `Promise.all` fan-out over `nodesToUpdate`: each node's embedder call
depends only on that node's own content; a `null`/failed result (`none`)
leaves `newNodes` untouched for that node. -/
def passUpdates (embed : String → Option (List ℚ)) :
    List NodeData → List NodeData → List NodeData
  | cur, [] => cur
  | cur, u :: rest =>
    match embed (contentToEmbed u) with
    | some e => passUpdates embed (updateFirstById u.id e cur) rest
    | none => passUpdates embed cur rest

/-- The `i < j` double loop over `funcNodes`: emit a `SEMANTIC` link exactly
when the cosine similarity strictly exceeds `0.75`, with the raw score as
`weight`. -/
def pairLinks (sq : ℚ → ℚ) : List NodeData → List LinkData
  | [] => []
  | a :: rest =>
    (rest.filterMap fun b =>
      let score := cosineSimilarity sq (a.embedding.getD []) (b.embedding.getD [])
      if 0.75 < score then some ⟨a.id, b.id, .SEMANTIC, some score⟩ else none)
      ++ pairLinks sq rest

/-- `handleRecalculateSemanticGraph` as a pure graph transformer: early return
when no node is eligible; otherwise apply the settled embedder results, and
only when at least one embedding was newly obtained (`updated`) replace the
semantic edge set wholesale, keeping all non-`SEMANTIC` links. -/
def recalcSemanticGraph (sq : ℚ → ℚ) (embed : String → Option (List ℚ))
    (g : GraphData) : GraphData :=
  let nodesToUpdate := g.nodes.filter eligibleForEmbedding
  if nodesToUpdate.isEmpty then g
  else
    let newNodes := passUpdates embed g.nodes nodesToUpdate
    let updated := nodesToUpdate.any fun n => (embed (contentToEmbed n)).isSome
    if updated then
      { nodes := newNodes
        links := (g.links.filter fun l => !(l.type == .SEMANTIC))
          ++ pairLinks sq (newNodes.filter fun n => n.embedding.isSome) }
    else g

/-! ## Supporting lemmas -/

lemma fnNodes_embedding (p : Prims) (ix iy : ℚ) :
    ∀ (defs : List (String × String)) (c : ℕ) (n : NodeData),
      n ∈ fnNodes p ix iy c defs → n.embedding = none := by
  intro defs
  induction defs with
  | nil => intro c n h; simp [fnNodes] at h
  | cons d rest ih =>
    intro c n h
    rcases d with ⟨name, code⟩
    simp only [fnNodes, List.mem_cons] at h
    rcases h with h | h
    · subst h; rfl
    · exact ih _ n h

lemma buildNodes_embedding (p : Prims) (total : ℕ) :
    ∀ (entries : List (String × String)) (fi c : ℕ) (n : NodeData),
      n ∈ buildNodes p total fi c entries → n.embedding = none := by
  intro entries
  induction entries with
  | nil => intro fi c n h; simp [buildNodes] at h
  | cons e rest ih =>
    intro fi c n h
    rcases e with ⟨fname, code⟩
    simp only [buildNodes, List.mem_cons, List.mem_append] at h
    rcases h with h | h | h
    · subst h; rfl
    · exact fnNodes_embedding p _ _ _ _ n h
    · exact ih _ _ n h

/-- Every node of a freshly built structural graph carries no embedding. -/
lemma gen_embedding_none (p : Prims) (files : List (String × String)) :
    ∀ n ∈ (generateGraphFromFiles p files).nodes, n.embedding = none := by
  intro n hn
  exact buildNodes_embedding p files.length files 0 0 n hn

lemma buildImportLinks_type (files : List (String × String)) :
    ∀ l ∈ buildImportLinks files, l.type = EdgeType.IMPORTS := by
  induction files with
  | nil => intro l h; simp [buildImportLinks] at h
  | cons e rest ih =>
    intro l h
    rcases e with ⟨fname, code⟩
    simp only [buildImportLinks, List.mem_append, List.mem_map] at h
    rcases h with ⟨d, _, rfl⟩ | h
    · rfl
    · exact ih l h

lemma callLinksFor_type (names : List String) (src : NodeData) :
    ∀ l ∈ callLinksFor names src, l.type = EdgeType.CALLS := by
  intro l h
  simp only [callLinksFor, List.mem_flatMap] at h
  rcases h with ⟨nm, _, h⟩
  by_cases hc : callHit src nm = true
  · rw [if_pos hc] at h; simp at h; subst h; rfl
  · rw [if_neg hc] at h; simp at h

lemma callLinks_type (names : List String) (nodes : List NodeData) :
    ∀ l ∈ callLinks names nodes, l.type = EdgeType.CALLS := by
  intro l h
  simp only [callLinks, List.mem_flatMap] at h
  rcases h with ⟨n, _, h⟩
  exact callLinksFor_type names n l h

/-- A fresh structural graph contains only `IMPORTS` and `CALLS` links, never
`SEMANTIC` ones. -/
lemma gen_links_structural (p : Prims) (files : List (String × String)) :
    ∀ l ∈ (generateGraphFromFiles p files).links,
      l.type = EdgeType.IMPORTS ∨ l.type = EdgeType.CALLS := by
  intro l h
  simp only [generateGraphFromFiles, List.mem_append] at h
  rcases h with h | h
  · exact Or.inl (buildImportLinks_type files l h)
  · exact Or.inr (callLinks_type _ _ l h)

lemma mergeNode_id (prevNodes : List NodeData) (n : NodeData) :
    (mergeNode prevNodes n).id = n.id := by
  unfold mergeNode
  cases prevNodes.find? (fun old => old.id == n.id) with
  | none => rfl
  | some o => by_cases h : o.code == n.code <;> simp [h]

/-! ## C1 — identity merge node cases -/

/-- C1: for every node `n` of the fresh structural graph, the merged node is
the image of `n` under `mergeNode`; if no previous node shares `n`'s id it has
`isStale = some true` and no embedding; if the previous node found by id has
byte-identical code, the merged node carries that node's `embedding` and
`isStale` unchanged; if the code differs, it carries the old `embedding`
unchanged but `isStale = some true`. -/
theorem merge_identity_cases (p : Prims) (files : List (String × String))
    (prev : GraphData) (n : NodeData)
    (hn : n ∈ (generateGraphFromFiles p files).nodes) :
    mergeNode prev.nodes n ∈ (mergeGraphs prev (generateGraphFromFiles p files)).nodes
    ∧ (prev.nodes.find? (fun old => old.id == n.id) = none →
        (mergeNode prev.nodes n).isStale = some true ∧
        (mergeNode prev.nodes n).embedding = none)
    ∧ ∀ o, prev.nodes.find? (fun old => old.id == n.id) = some o →
        (o.code = n.code →
          (mergeNode prev.nodes n).embedding = o.embedding ∧
          (mergeNode prev.nodes n).isStale = o.isStale)
        ∧ (o.code ≠ n.code →
          (mergeNode prev.nodes n).embedding = o.embedding ∧
          (mergeNode prev.nodes n).isStale = some true) := by
  refine ⟨List.mem_map_of_mem _ hn, ?_, ?_⟩
  · intro h
    unfold mergeNode
    rw [h]
    exact ⟨rfl, gen_embedding_none p files n hn⟩
  · intro o ho
    constructor
    · intro hc
      simp only [mergeNode, ho]
      rw [if_pos (by simp [hc])]
      exact ⟨rfl, rfl⟩
    · intro hc
      simp only [mergeNode, ho]
      rw [if_neg (by simpa using hc)]
      exact ⟨rfl, rfl⟩

def pW : Prims := ⟨fun _ => 1/2, fun _ => 1, fun _ => 0⟩

def filesW : List (String × String) := [("main.py", "def f():\n    return 1\n")]

def graphEmpty : GraphData := ⟨[], []⟩

def nW : NodeData :=
  { id := "fn-f", type := .FUNCTION, label := "f", language := some .python
    code := some "def f():\n    return 1\n"
    metadata := some { why := some "Logic Block", tradeOff := none, status := some "stable" }
    complexity := some 11, x := some 0, y := some 0, embedding := none, isStale := none }

/-- C1 witness: a fresh `fn-f` node merged against an empty previous graph is
stale and unembedded. -/
theorem merge_identity_cases_w :
    (mergeNode graphEmpty.nodes nW).isStale = some true ∧
    (mergeNode graphEmpty.nodes nW).embedding = none :=
  (merge_identity_cases pW filesW graphEmpty nW (by with_unfolding_all decide)).2.1 (by with_unfolding_all decide)

/-! ## C2 — merge output invariant and semantic edge validity -/

/-- C2: merged node ids are exactly the fresh graph's node ids; merged links
are the fresh structural links followed by exactly those previous `SEMANTIC`
links whose endpoints both occur in the merged node set; consequently every
`SEMANTIC` link of the merged graph has both endpoints among the merged
nodes. -/
theorem merge_invariant (p : Prims) (files : List (String × String))
    (prev : GraphData) :
    (mergeGraphs prev (generateGraphFromFiles p files)).nodes.map NodeData.id
        = (generateGraphFromFiles p files).nodes.map NodeData.id
    ∧ (mergeGraphs prev (generateGraphFromFiles p files)).links
        = (generateGraphFromFiles p files).links
          ++ (prev.links.filter fun l => l.type == EdgeType.SEMANTIC).filter (fun l =>
              ((mergeGraphs prev (generateGraphFromFiles p files)).nodes.any
                  fun n => n.id == l.source)
              && ((mergeGraphs prev (generateGraphFromFiles p files)).nodes.any
                  fun n => n.id == l.target))
    ∧ ∀ l ∈ (mergeGraphs prev (generateGraphFromFiles p files)).links,
        l.type = EdgeType.SEMANTIC →
        ((mergeGraphs prev (generateGraphFromFiles p files)).nodes.any
            fun n => n.id == l.source) = true
        ∧ ((mergeGraphs prev (generateGraphFromFiles p files)).nodes.any
            fun n => n.id == l.target) = true := by
  refine ⟨?_, rfl, ?_⟩
  · rw [mergeGraphs, List.map_map]
    exact List.map_congr_left fun n _ => mergeNode_id prev.nodes n
  · intro l hl hsem
    rw [mergeGraphs] at hl
    simp only [List.mem_append] at hl
    rcases hl with hl | hl
    · rcases gen_links_structural p files l hl with h | h <;> rw [hsem] at h <;> cases h
    · rw [List.mem_filter] at hl
      have := hl.2
      rw [Bool.and_eq_true] at this
      exact this

/-- C2 witness: a concrete merge of a previous graph holding one surviving and
one dangling semantic edge. -/
theorem merge_invariant_w :
    ((mergeGraphs
        ⟨[nW], [⟨"fn-f", "fn-f", .SEMANTIC, some 1⟩, ⟨"fn-f", "fn-gone", .SEMANTIC, some 1⟩]⟩
        (generateGraphFromFiles pW filesW)).links.filter
          fun l => l.type == EdgeType.SEMANTIC)
      = [⟨"fn-f", "fn-f", .SEMANTIC, some 1⟩]
    ∧ ((mergeGraphs
        ⟨[nW], [⟨"fn-f", "fn-f", .SEMANTIC, some 1⟩, ⟨"fn-f", "fn-gone", .SEMANTIC, some 1⟩]⟩
        (generateGraphFromFiles pW filesW)).nodes.any
          fun n => n.id == "fn-f") = true := by
  have h := merge_invariant pW filesW
    ⟨[nW], [⟨"fn-f", "fn-f", .SEMANTIC, some 1⟩, ⟨"fn-f", "fn-gone", .SEMANTIC, some 1⟩]⟩
  refine ⟨by with_unfolding_all decide, ?_⟩
  exact (h.2.2 ⟨"fn-f", "fn-f", .SEMANTIC, some 1⟩ (by with_unfolding_all decide) rfl).1

/-! ## C8 — cosine similarity definition and zero-magnitude guard -/

lemma dotProd_self_zero : ∀ v : List ℚ, (∀ x ∈ v, x = 0) → dotProd v v = 0 := by
  intro v
  induction v with
  | nil => intro _; rfl
  | cons a as ih =>
    intro h
    have ha : a = 0 := h a (List.mem_cons_self a as)
    have : dotProd as as = 0 := ih fun x hx => h x (List.mem_cons_of_mem a hx)
    simp [dotProd, ha, this]

/-- C8: `cosineSimilarity` equals `dot(a,b) / (|a| * |b|)` when both
magnitudes are nonzero, and equals `0` whenever either magnitude is zero —
in particular for the zero vector against any vector (`Math.sqrt 0 = 0`). -/
theorem cosineSimilarity_spec (sq : ℚ → ℚ) (a b : List ℚ) :
    (sq (sumSquares a) ≠ 0 → sq (sumSquares b) ≠ 0 →
      cosineSimilarity sq a b = dotProd a b / (sq (sumSquares a) * sq (sumSquares b)))
    ∧ (sq (sumSquares a) = 0 ∨ sq (sumSquares b) = 0 → cosineSimilarity sq a b = 0)
    ∧ ((∀ x ∈ a, x = 0) → sq 0 = 0 → cosineSimilarity sq a b = 0) := by
  refine ⟨?_, ?_, ?_⟩
  · intro ha hb
    unfold cosineSimilarity
    rw [if_neg (mul_ne_zero ha hb)]
  · intro h
    unfold cosineSimilarity
    rcases h with h | h <;> rw [if_pos (by rw [h]; ring)]
  · intro hz hs
    unfold cosineSimilarity
    have : sumSquares a = 0 := dotProd_self_zero a hz
    rw [if_pos (by rw [sumSquares] at this ⊢; rw [this, hs]; ring)]

/-- C8 witness: the zero vector against `[3, 4]` yields similarity `0`. -/
theorem cosineSimilarity_spec_w :
    cosineSimilarity (fun _ => 0) [0, 0] [3, 4] = 0 :=
  (cosineSimilarity_spec (fun _ => 0) [0, 0] [3, 4]).2.2 (by with_unfolding_all decide) rfl

/-! ## C10 — atomicity of the semantic pass -/

/-- C10: the semantic recalculation leaves the graph completely unchanged when
no node is eligible, and likewise when every eligible node's embedder call
fails or returns `null`. -/
theorem recalc_atomic (sq : ℚ → ℚ) (embed : String → Option (List ℚ))
    (g : GraphData) :
    (g.nodes.filter eligibleForEmbedding = [] → recalcSemanticGraph sq embed g = g)
    ∧ ((∀ n ∈ g.nodes, eligibleForEmbedding n = true → embed (contentToEmbed n) = none) →
        recalcSemanticGraph sq embed g = g) := by
  constructor
  · intro h
    unfold recalcSemanticGraph
    rw [h]
    rfl
  · intro h
    unfold recalcSemanticGraph
    by_cases hfil : g.nodes.filter eligibleForEmbedding = []
    · rw [hfil]; rfl
    · rw [if_neg (by simpa [List.isEmpty_iff] using hfil)]
      have hupd : ((g.nodes.filter eligibleForEmbedding).any
          fun n => (embed (contentToEmbed n)).isSome) = false := by
        rw [List.any_eq_false]
        intro n hn
        rw [List.mem_filter] at hn
        rw [h n hn.1 hn.2]
        simp
      rw [hupd]
      rfl

/-- C10 witness: a graph with one stale but non-eligible node (not a Function)
passes through the recalculation unchanged. -/
theorem recalc_atomic_w :
    recalcSemanticGraph (fun _ => 0) (fun _ => some [1])
      ⟨[{ nW with type := .MODULE }], []⟩ = ⟨[{ nW with type := .MODULE }], []⟩ :=
  (recalc_atomic (fun _ => 0) (fun _ => some [1]) ⟨[{ nW with type := .MODULE }], []⟩).1
    (by with_unfolding_all decide)

/-! ## C3 — merge and layout positions

The merge spreads `{ ...newNode, embedding, isStale }`, so the `x`/`y` fields
of a merged node come from the *fresh* parse (whose function nodes are
re-jittered with `Math.random()`), not from the previous node. -/

/-- A previous graph whose `fn-f` node sits at `(100, 100)` and carries an
embedding, with code byte-identical to the fresh parse of `filesW`. -/
def prevC3 : GraphData :=
  ⟨[{ id := "fn-f", type := .FUNCTION, label := "f", language := some .python
      code := some "def f():\n    return 1\n", metadata := none
      complexity := some 1, x := some 100, y := some 100
      embedding := some [1, 0], isStale := some false }], []⟩

/-- C3 counterexample: the previous `fn-f` node has the same id and
byte-identical code as the fresh one and sits at `x = 100`, yet the merged
`fn-f` node has `x = 0` (the fresh node's position) — the merge does not carry
the previous position over. -/
theorem merge_position_cex :
    ((generateGraphFromFiles pW filesW).nodes.find? (fun n => n.id == "fn-f")).map NodeData.code
      = (prevC3.nodes.find? (fun n => n.id == "fn-f")).map NodeData.code
    ∧ (prevC3.nodes.find? (fun n => n.id == "fn-f")).map NodeData.x = some (some 100)
    ∧ ((mergeGraphs prevC3 (generateGraphFromFiles pW filesW)).nodes.find?
        (fun n => n.id == "fn-f")).map NodeData.x = some (some 0) := by
  refine ⟨by with_unfolding_all decide, by decide, by with_unfolding_all decide⟩

/-- C3 amended: on an id match with byte-identical code the merge carries over
the previous node's `embedding` and `isStale` unchanged, but the layout
position fields `x`, `y` of the merged node are the fresh node's, not the
previous node's. -/
theorem merge_position_amended (prevNodes : List NodeData) (n o : NodeData)
    (ho : prevNodes.find? (fun old => old.id == n.id) = some o)
    (hc : o.code = n.code) :
    (mergeNode prevNodes n).x = n.x ∧ (mergeNode prevNodes n).y = n.y
    ∧ (mergeNode prevNodes n).embedding = o.embedding
    ∧ (mergeNode prevNodes n).isStale = o.isStale := by
  simp only [mergeNode, ho]
  rw [if_pos (by simp [hc])]
  exact ⟨rfl, rfl, rfl, rfl⟩

/-- C3 amended witness: concrete instance of the amended merge behaviour. -/
theorem merge_position_amended_w :
    (mergeNode prevC3.nodes nW).x = nW.x ∧ (mergeNode prevC3.nodes nW).y = nW.y
    ∧ (mergeNode prevC3.nodes nW).embedding = some [1, 0]
    ∧ (mergeNode prevC3.nodes nW).isStale = some false := by
  have h := merge_position_amended prevC3.nodes nW
    { id := "fn-f", type := .FUNCTION, label := "f", language := some .python
      code := some "def f():\n    return 1\n", metadata := none
      complexity := some 1, x := some 100, y := some 100
      embedding := some [1, 0], isStale := some false }
    (by decide) (by decide)
  exact h

/-! ## C4 — builder determinism modulo `Math.random()` -/

def pZero : Prims := ⟨fun _ => 0, fun _ => 1, fun _ => 0⟩

/-- C4 counterexample: two invocations of graph generation on the same
`FileMap` observe different `Math.random()` draws (streams `0,0,...` and
`1/2,1/2,...` with identical `cos`/`sin`), and return different node lists —
the function node's `complexity` and jitter differ — so the output is not the
same "including every field of each node". -/
theorem builder_determinism_cex :
    generateGraphFromFiles pZero filesW ≠ generateGraphFromFiles pW filesW := by
  with_unfolding_all decide

/-- Erase the `Math.random()`-derived fields of a function node (its
`complexity` and jittered `x`, `y`). -/
def eraseRandFields (n : NodeData) : NodeData :=
  if n.type == .FUNCTION then { n with complexity := none, x := none, y := none } else n

lemma eraseRand_id (n : NodeData) : (eraseRandFields n).id = n.id := by
  unfold eraseRandFields; split <;> rfl

lemma eraseRand_label (n : NodeData) : (eraseRandFields n).label = n.label := by
  unfold eraseRandFields; split <;> rfl

lemma eraseRand_code (n : NodeData) : (eraseRandFields n).code = n.code := by
  unfold eraseRandFields; split <;> rfl

lemma eraseRand_type (n : NodeData) : (eraseRandFields n).type = n.type := by
  unfold eraseRandFields; split <;> rfl

lemma seedPos_congr (p1 p2 : Prims) (hc : p1.cos2pi = p2.cos2pi)
    (hs : p1.sin2pi = p2.sin2pi) (total fi : ℕ) (fname : String) :
    seedPos p1 total fi fname = seedPos p2 total fi fname := by
  unfold seedPos; rw [hc, hs]

lemma moduleNode_congr (p1 p2 : Prims) (hc : p1.cos2pi = p2.cos2pi)
    (hs : p1.sin2pi = p2.sin2pi) (total fi : ℕ) (fname code : String) :
    moduleNode p1 total fi fname code = moduleNode p2 total fi fname code := by
  unfold moduleNode; rw [seedPos_congr p1 p2 hc hs]

lemma eraseRand_mkFnNode (p : Prims) (c : ℕ) (ix iy : ℚ) (name code : String) :
    eraseRandFields (mkFnNode p c ix iy name code) =
    ⟨"fn-" ++ name, .FUNCTION, name, some .python, some code,
      some ⟨some (if strContains name "recursive"
        then "Recursive Implementation" else "Logic Block"), none, some "stable"⟩,
      none, none, none, none, none⟩ := rfl

lemma fnNodes_erase_congr (p1 p2 : Prims) (ix1 iy1 ix2 iy2 : ℚ) :
    ∀ (defs : List (String × String)) (c1 c2 : ℕ),
      (fnNodes p1 ix1 iy1 c1 defs).map eraseRandFields
        = (fnNodes p2 ix2 iy2 c2 defs).map eraseRandFields := by
  intro defs
  induction defs with
  | nil => intro c1 c2; rfl
  | cons d rest ih =>
    intro c1 c2
    rcases d with ⟨name, code⟩
    simp only [fnNodes, List.map_cons, eraseRand_mkFnNode]
    exact congrArg _ (ih (c1 + 3) (c2 + 3))

lemma buildNodes_erase_congr (p1 p2 : Prims) (hc : p1.cos2pi = p2.cos2pi)
    (hs : p1.sin2pi = p2.sin2pi) (total : ℕ) :
    ∀ (entries : List (String × String)) (fi c1 c2 : ℕ),
      (buildNodes p1 total fi c1 entries).map eraseRandFields
        = (buildNodes p2 total fi c2 entries).map eraseRandFields := by
  intro entries
  induction entries with
  | nil => intro fi c1 c2; rfl
  | cons e rest ih =>
    intro fi c1 c2
    rcases e with ⟨fname, code⟩
    simp only [buildNodes, List.map_cons, List.map_append]
    rw [moduleNode_congr p1 p2 hc hs,
      fnNodes_erase_congr p1 p2 _ _ _ _ (pyDefs fname code) c1 c2,
      ih (fi + 1) (c1 + 3 * (pyDefs fname code).length) (c2 + 3 * (pyDefs fname code).length)]

lemma callHit_congr (a b : NodeData) (hlab : a.label = b.label)
    (hcode : a.code = b.code) (nm : String) : callHit a nm = callHit b nm := by
  unfold callHit; rw [hlab, hcode]

lemma callLinksFor_congr (names : List String) (a b : NodeData)
    (hid : a.id = b.id) (hlab : a.label = b.label) (hcode : a.code = b.code) :
    callLinksFor names a = callLinksFor names b := by
  unfold callLinksFor
  congr 1
  funext nm
  rw [callHit_congr a b hlab hcode, hid]

lemma callLinks_erase_congr (names : List String) :
    ∀ (ns1 ns2 : List NodeData),
      ns1.map eraseRandFields = ns2.map eraseRandFields →
      callLinks names ns1 = callLinks names ns2 := by
  intro ns1
  induction ns1 with
  | nil =>
    intro ns2 h
    cases ns2 with
    | nil => rfl
    | cons b t => simp at h
  | cons a t1 ih =>
    intro ns2 h
    cases ns2 with
    | nil => simp at h
    | cons b t2 =>
      simp only [List.map_cons, List.cons.injEq] at h
      have hid : a.id = b.id := by
        rw [← eraseRand_id a, ← eraseRand_id b, h.1]
      have hlab : a.label = b.label := by
        rw [← eraseRand_label a, ← eraseRand_label b, h.1]
      have hcode : a.code = b.code := by
        rw [← eraseRand_code a, ← eraseRand_code b, h.1]
      have htype : a.type = b.type := by
        rw [← eraseRand_type a, ← eraseRand_type b, h.1]
      simp only [callLinks, List.filter_cons, htype]
      by_cases hb : (b.type == NodeType.FUNCTION) = true
      · rw [if_pos hb, if_pos hb]
        simp only [List.flatMap_cons]
        rw [callLinksFor_congr names a b hid hlab hcode]
        have := ih t2 h.2
        simp only [callLinks] at this
        rw [this]
      · rw [if_neg hb, if_neg hb]
        have := ih t2 h.2
        simp only [callLinks] at this
        exact this

/-- C4 amended: graph generation is deterministic up to the `Math.random()`
draws — two invocations with the same `cos`/`sin` but arbitrary random
streams agree on the links and on every node field except the function nodes'
`complexity` and jittered `x`, `y`. -/
theorem builder_determinism_amended (p1 p2 : Prims) (files : List (String × String))
    (hc : p1.cos2pi = p2.cos2pi) (hs : p1.sin2pi = p2.sin2pi) :
    (generateGraphFromFiles p1 files).nodes.map eraseRandFields
      = (generateGraphFromFiles p2 files).nodes.map eraseRandFields
    ∧ (generateGraphFromFiles p1 files).links = (generateGraphFromFiles p2 files).links := by
  constructor
  · exact buildNodes_erase_congr p1 p2 hc hs files.length files 0 0 0
  · show buildImportLinks files ++ _ = buildImportLinks files ++ _
    rw [callLinks_erase_congr (definedNames files) _ _
      (buildNodes_erase_congr p1 p2 hc hs files.length files 0 0 0)]

/-- C4 amended witness: the two random streams of the counterexample agree
after erasing the random-derived fields. -/
theorem builder_determinism_amended_w :
    (generateGraphFromFiles pZero filesW).nodes.map eraseRandFields
      = (generateGraphFromFiles pW filesW).nodes.map eraseRandFields
    ∧ (generateGraphFromFiles pZero filesW).links = (generateGraphFromFiles pW filesW).links :=
  builder_determinism_amended pZero pW filesW rfl rfl

/-! ## C5 — node id uniqueness -/

def files2 : List (String × String) :=
  [("a.py", "def f():\n    return 1\n"), ("b.py", "def f():\n    return 2\n")]

/-- C5 counterexample: two files each defining a top-level function `f` yield
two distinct nodes that share the id `fn-f` — the node list is not unique by
id (the ids come out as `file-a.py, fn-f, file-b.py, fn-f`). -/
theorem node_ids_unique_cex :
    ¬ ((generateGraphFromFiles pW files2).nodes.map NodeData.id).Nodup := by
  with_unfolding_all decide

/-- The node-id sequence the builder produces, file by file. -/
def idsOf : List (String × String) → List String
  | [] => []
  | (fname, code) :: rest =>
    ("file-" ++ fname) :: ((pyDefs fname code).map (fun d => "fn-" ++ d.1) ++ idsOf rest)

lemma fnNodes_ids (p : Prims) (ix iy : ℚ) :
    ∀ (defs : List (String × String)) (c : ℕ),
      (fnNodes p ix iy c defs).map NodeData.id = defs.map (fun d => "fn-" ++ d.1) := by
  intro defs
  induction defs with
  | nil => intro c; rfl
  | cons d rest ih =>
    intro c
    rcases d with ⟨name, code⟩
    simp only [fnNodes, List.map_cons]
    rw [ih (c + 3)]
    rfl

lemma buildNodes_ids (p : Prims) (total : ℕ) :
    ∀ (entries : List (String × String)) (fi c : ℕ),
      (buildNodes p total fi c entries).map NodeData.id = idsOf entries := by
  intro entries
  induction entries with
  | nil => intro fi c; rfl
  | cons e rest ih =>
    intro fi c
    rcases e with ⟨fname, code⟩
    simp only [buildNodes, List.map_cons, List.map_append, idsOf]
    rw [fnNodes_ids, ih]
    rfl

lemma file_ne_fn (a b : String) : "file-" ++ a ≠ "fn-" ++ b := by
  intro h
  have h2 : ("file-" ++ a).data = ("fn-" ++ b).data := congrArg String.data h
  rw [String.data_append, String.data_append] at h2
  simp at h2

lemma fn_id_inj (a b : String) (h : "fn-" ++ a = "fn-" ++ b) : a = b := by
  have h2 : ("fn-" ++ a).data = ("fn-" ++ b).data := congrArg String.data h
  rw [String.data_append, String.data_append] at h2
  simp at h2
  exact String.ext h2

lemma file_id_inj (a b : String) (h : "file-" ++ a = "file-" ++ b) : a = b := by
  have h2 : ("file-" ++ a).data = ("file-" ++ b).data := congrArg String.data h
  rw [String.data_append, String.data_append] at h2
  simp at h2
  exact String.ext h2

lemma mem_idsOf : ∀ (entries : List (String × String)) (x : String),
    x ∈ idsOf entries →
    (∃ f ∈ entries.map Prod.fst, x = "file-" ++ f)
    ∨ (∃ nm ∈ allFnNames entries, x = "fn-" ++ nm) := by
  intro entries
  induction entries with
  | nil => intro x h; simp [idsOf] at h
  | cons e rest ih =>
    intro x h
    rcases e with ⟨fname, code⟩
    simp only [idsOf, List.mem_cons, List.mem_append, List.mem_map] at h
    rcases h with rfl | ⟨d, hd, rfl⟩ | h
    · exact Or.inl ⟨fname, by simp⟩
    · refine Or.inr ⟨d.1, ?_, rfl⟩
      simp only [allFnNames, List.mem_append, List.mem_map]
      exact Or.inl ⟨d, hd, rfl⟩
    · rcases ih x h with ⟨f, hf, rfl⟩ | ⟨nm, hnm, rfl⟩
      · exact Or.inl ⟨f, by simp [List.mem_map] at hf ⊢; tauto⟩
      · refine Or.inr ⟨nm, ?_, rfl⟩
        simp only [allFnNames, List.mem_append]
        exact Or.inr hnm

lemma idsOf_nodup : ∀ entries : List (String × String),
    (entries.map Prod.fst).Nodup → (allFnNames entries).Nodup →
    (idsOf entries).Nodup := by
  intro entries
  induction entries with
  | nil => intro _ _; simp [idsOf]
  | cons e rest ih =>
    intro hf hn
    rcases e with ⟨fname, code⟩
    simp only [List.map_cons, List.nodup_cons] at hf
    simp only [allFnNames, List.nodup_append] at hn
    simp only [idsOf, List.nodup_cons, List.nodup_append]
    refine ⟨?_, ?_, ih hf.2 hn.2.1, ?_⟩
    · intro hmem
      rcases List.mem_append.1 hmem with hmem | hmem
      · rcases List.mem_map.1 hmem with ⟨d, _, hd⟩
        exact file_ne_fn fname d.1 hd.symm
      · rcases mem_idsOf rest _ hmem with ⟨f, hf2, heq⟩ | ⟨nm, _, heq⟩
        · exact hf.1 (file_id_inj fname f heq ▸ hf2)
        · exact file_ne_fn fname nm heq
    · rw [show (fun d : String × String => "fn-" ++ d.1)
          = (fun nm => "fn-" ++ nm) ∘ Prod.fst from rfl, ← List.map_map]
      exact hn.1.map (fun a b hab => fn_id_inj a b hab)
    · intro x hx hx2
      rcases List.mem_map.1 hx with ⟨d, hd, rfl⟩
      rcases mem_idsOf rest _ hx2 with ⟨f, _, heq⟩ | ⟨nm, hnm, heq⟩
      · exact file_ne_fn f d.1 heq.symm
      · have : d.1 ∈ (pyDefs fname code).map Prod.fst := List.mem_map_of_mem _ hd
        exact hn.2.2 this (fn_id_inj d.1 nm heq ▸ hnm)

/-- C5 amended: node ids are unique provided the filenames are distinct (JS
object keys always are) and the extracted function names are globally
distinct across all python files; in general two same-named functions (in the
same or different files) yield two nodes sharing the id `fn-<name>`. -/
theorem node_ids_unique_amended (p : Prims) (files : List (String × String))
    (hf : (files.map Prod.fst).Nodup) (hn : (allFnNames files).Nodup) :
    ((generateGraphFromFiles p files).nodes.map NodeData.id).Nodup := by
  have : (generateGraphFromFiles p files).nodes = buildNodes p files.length 0 0 files := rfl
  rw [this, buildNodes_ids]
  exact idsOf_nodup files hf hn

/-- C5 amended witness: with globally distinct function names the ids are
unique. -/
theorem node_ids_unique_amended_w :
    ((generateGraphFromFiles pW filesW).nodes.map NodeData.id).Nodup :=
  node_ids_unique_amended pW filesW (by decide) (by with_unfolding_all decide)

/-! ## C6 — call-graph edges -/

lemma mem_callLinksFor (names : List String) (src : NodeData) (l : LinkData) :
    l ∈ callLinksFor names src ↔
    ∃ nm ∈ names, callHit src nm = true ∧ l = ⟨src.id, "fn-" ++ nm, .CALLS, none⟩ := by
  simp only [callLinksFor, List.mem_flatMap]
  constructor
  · rintro ⟨nm, hnm, hmem⟩
    by_cases h : callHit src nm = true
    · rw [if_pos h] at hmem
      simp only [List.mem_singleton] at hmem
      exact ⟨nm, hnm, h, hmem⟩
    · rw [if_neg h] at hmem
      simp at hmem
  · rintro ⟨nm, hnm, hh, rfl⟩
    refine ⟨nm, hnm, ?_⟩
    rw [if_pos hh]
    simp

lemma mem_dedupAux : ∀ (l seen : List String) (x : String),
    x ∈ dedupAux seen l ↔ x ∈ l ∧ x ∉ seen := by
  intro l
  induction l with
  | nil => intro seen x; simp [dedupAux]
  | cons a rest ih =>
    intro seen x
    simp only [dedupAux]
    by_cases h : seen.contains a = true
    · rw [if_pos h, ih]
      have ha : a ∈ seen := by simpa using h
      simp only [List.mem_cons]
      constructor
      · rintro ⟨hx, hs⟩
        exact ⟨Or.inr hx, hs⟩
      · rintro ⟨hx | hx, hs⟩
        · exact absurd (hx ▸ ha) hs
        · exact ⟨hx, hs⟩
    · rw [if_neg h]
      have ha : a ∉ seen := by simpa using h
      simp only [List.mem_cons, ih]
      constructor
      · rintro (rfl | ⟨hx, hs⟩)
        · exact ⟨Or.inl rfl, ha⟩
        · exact ⟨Or.inr hx, fun hxs => hs (Or.inr hxs)⟩
      · rintro ⟨rfl | hx, hs⟩
        · exact Or.inl rfl
        · by_cases hxa : x = a
          · exact Or.inl hxa
          · refine Or.inr ⟨hx, fun hmem => ?_⟩
            rcases hmem with h1 | h1
            · exact hxa h1
            · exact hs h1

lemma mem_definedNames (files : List (String × String)) (nm : String) :
    nm ∈ definedNames files ↔ nm ∈ allFnNames files := by
  simp [definedNames, mem_dedupAux]

def filesRec : List (String × String) := [("a.py", "def f():\n    return f(0)\n")]

/-- C6: a `CALLS` edge of the built graph goes from a function node `src` to a
known function name `nm` (as `fn-<nm>`) exactly when `callHit src nm` holds,
i.e. when the word-boundary pattern `<nm>(` occurs in `src`'s extracted code —
tested against the code with the header line dropped when `nm` is `src`'s own
name, and against the full extracted code otherwise.  Concretely,
`def f():\n    return f(0)\n` yields the self-loop `fn-f -> fn-f`, while the
non-recursive `def f():\n    return 1\n` yields no `CALLS` edge at all. -/
theorem calls_edges_iff (p : Prims) (files : List (String × String)) :
    (∀ l ∈ (generateGraphFromFiles p files).links, l.type = EdgeType.CALLS →
      ∃ src ∈ (generateGraphFromFiles p files).nodes, src.type = NodeType.FUNCTION ∧
        ∃ nm ∈ allFnNames files, callHit src nm = true ∧
          l = ⟨src.id, "fn-" ++ nm, .CALLS, none⟩)
    ∧ (∀ (src : NodeData) (nm : String), src ∈ (generateGraphFromFiles p files).nodes →
        src.type = NodeType.FUNCTION → nm ∈ allFnNames files → callHit src nm = true →
        (⟨src.id, "fn-" ++ nm, .CALLS, none⟩ : LinkData)
          ∈ (generateGraphFromFiles p files).links)
    ∧ (⟨"fn-f", "fn-f", .CALLS, none⟩ : LinkData) ∈ (generateGraphFromFiles pW filesRec).links
    ∧ ∀ l ∈ (generateGraphFromFiles pW filesW).links, l.type ≠ EdgeType.CALLS := by
  refine ⟨?_, ?_, by with_unfolding_all decide, by with_unfolding_all decide⟩
  · intro l hl hc
    simp only [generateGraphFromFiles, List.mem_append] at hl
    rcases hl with hl | hl
    · rw [buildImportLinks_type files l hl] at hc
      cases hc
    · simp only [callLinks, List.mem_flatMap] at hl
      rcases hl with ⟨src, hsrc, hmem⟩
      rw [List.mem_filter] at hsrc
      rcases (mem_callLinksFor _ src l).1 hmem with ⟨nm, hnm, hh, rfl⟩
      exact ⟨src, hsrc.1, by simpa using hsrc.2,
        nm, (mem_definedNames files nm).1 hnm, hh, rfl⟩
  · intro src nm hsrc htype hnm hh
    simp only [generateGraphFromFiles, List.mem_append]
    refine Or.inr ?_
    simp only [callLinks, List.mem_flatMap]
    refine ⟨src, List.mem_filter.2 ⟨hsrc, by simp [htype]⟩, ?_⟩
    exact (mem_callLinksFor _ src _).2 ⟨nm, (mem_definedNames files nm).2 hnm, hh, rfl⟩

/-- C6 witness: in scenario B (`f` calls `g`), the edge `fn-f -> fn-g` is
emitted by the characterization's constructive direction. -/
theorem calls_edges_iff_w :
    (⟨"fn-f", "fn-g", .CALLS, none⟩ : LinkData)
      ∈ (generateGraphFromFiles pW
          [("a.py", "def f():\n    return g()\n\ndef g():\n    return 1\n")]).links := by
  have h := (calls_edges_iff pW
    [("a.py", "def f():\n    return g()\n\ndef g():\n    return 1\n")]).2.1
  have hmem := h ⟨"fn-f", .FUNCTION, "f", some .python,
      some "def f():\n    return g()\n", some ⟨some "Logic Block", none, some "stable"⟩,
      some 11, some 350, some 0, none, none⟩ "g"
    (by with_unfolding_all decide) rfl (by with_unfolding_all decide)
    (by with_unfolding_all decide)
  exact hmem

/-! ## C7 — semantic edge threshold and wholesale replacement -/

lemma pair_sublist_cons (a b x : NodeData) (rest : List NodeData) :
    [a, b].Sublist (x :: rest) ↔ [a, b].Sublist rest ∨ (a = x ∧ b ∈ rest) := by
  constructor
  · intro h
    cases h with
    | cons _ h => exact Or.inl h
    | cons₂ _ h => exact Or.inr ⟨rfl, List.singleton_sublist.1 h⟩
  · rintro (h | ⟨rfl, hb⟩)
    · exact h.cons x
    · exact (List.singleton_sublist.2 hb).cons₂ a

/-- Membership characterization of the `i < j` double loop: a link is emitted
exactly for an ordered pair (`[a, b]` a sublist of the node list) whose
similarity strictly exceeds `0.75`, and it carries the raw score as weight. -/
lemma mem_pairLinks (sq : ℚ → ℚ) :
    ∀ (xs : List NodeData) (l : LinkData),
      l ∈ pairLinks sq xs ↔
      ∃ a b, [a, b].Sublist xs ∧
        0.75 < cosineSimilarity sq (a.embedding.getD []) (b.embedding.getD []) ∧
        l = ⟨a.id, b.id, .SEMANTIC,
          some (cosineSimilarity sq (a.embedding.getD []) (b.embedding.getD []))⟩ := by
  intro xs
  induction xs with
  | nil =>
    intro l
    simp only [pairLinks, List.not_mem_nil, false_iff]
    rintro ⟨a, b, hs, -, -⟩
    have := hs.length_le
    simp at this
  | cons x rest ih =>
    intro l
    simp only [pairLinks, List.mem_append, List.mem_filterMap, ih]
    constructor
    · rintro (⟨b, hb, hsome⟩ | ⟨a, b, hs, hscore, rfl⟩)
      · by_cases hc : (0.75 : ℚ) <
            cosineSimilarity sq (x.embedding.getD []) (b.embedding.getD [])
        · rw [if_pos hc] at hsome
          refine ⟨x, b, (pair_sublist_cons x b x rest).2 (Or.inr ⟨rfl, hb⟩), hc, ?_⟩
          exact (Option.some.inj hsome).symm
        · rw [if_neg hc] at hsome
          cases hsome
      · exact ⟨a, b, (pair_sublist_cons a b x rest).2 (Or.inl hs), hscore, rfl⟩
    · rintro ⟨a, b, hs, hscore, rfl⟩
      rcases (pair_sublist_cons a b x rest).1 hs with hs | ⟨rfl, hb⟩
      · exact Or.inr ⟨a, b, hs, hscore, rfl⟩
      · exact Or.inl ⟨b, hb, by rw [if_pos hscore]⟩

/-- C7: in a pass where at least one embedding was newly obtained, the stored
links become the previous non-`SEMANTIC` links followed by the freshly
recomputed semantic set (the old `SEMANTIC` set is replaced wholesale); and a
semantic link is emitted for an ordered pair of embedding-carrying nodes
exactly when their cosine similarity strictly exceeds `0.75` (so a similarity
of exactly `0.75` emits nothing), with the raw score stored as the weight. -/
theorem semantic_recalc_spec (sq : ℚ → ℚ) (embed : String → Option (List ℚ))
    (g : GraphData)
    (hup : ((g.nodes.filter eligibleForEmbedding).any
      fun n => (embed (contentToEmbed n)).isSome) = true) :
    (recalcSemanticGraph sq embed g).nodes
        = passUpdates embed g.nodes (g.nodes.filter eligibleForEmbedding)
    ∧ (recalcSemanticGraph sq embed g).links
        = (g.links.filter fun l => !(l.type == EdgeType.SEMANTIC))
          ++ pairLinks sq
            ((passUpdates embed g.nodes (g.nodes.filter eligibleForEmbedding)).filter
              fun n => n.embedding.isSome)
    ∧ ∀ (embNodes : List NodeData) (l : LinkData),
        l ∈ pairLinks sq embNodes ↔
        ∃ a b, [a, b].Sublist embNodes ∧
          0.75 < cosineSimilarity sq (a.embedding.getD []) (b.embedding.getD []) ∧
          l = ⟨a.id, b.id, .SEMANTIC,
            some (cosineSimilarity sq (a.embedding.getD []) (b.embedding.getD []))⟩ := by
  have hne : (g.nodes.filter eligibleForEmbedding).isEmpty ≠ true := by
    intro h
    rw [List.isEmpty_iff.1 h] at hup
    simp at hup
  simp only [recalcSemanticGraph]
  rw [if_neg hne, if_pos hup]
  exact ⟨rfl, rfl, mem_pairLinks sq⟩

def sqW : ℚ → ℚ := fun _ => 1

def embedW : String → Option (List ℚ) := fun _ => some [1, 0]

def gW : GraphData :=
  ⟨[⟨"fn-a", .FUNCTION, "a", some .python, some "x()", none, none, none, none, none, some true⟩,
    ⟨"fn-b", .FUNCTION, "b", some .python, some "x()", none, none, none, none, none, some true⟩],
   [⟨"fn-a", "file-x", .IMPORTS, none⟩, ⟨"fn-a", "fn-b", .SEMANTIC, some (1/2)⟩]⟩

/-- C7 witness: a pass that embeds both nodes of `gW` replaces its semantic
edge set wholesale while keeping the `IMPORTS` link. -/
theorem semantic_recalc_spec_w :
    (recalcSemanticGraph sqW embedW gW).links
      = (gW.links.filter fun l => !(l.type == EdgeType.SEMANTIC))
        ++ pairLinks sqW
          ((passUpdates embedW gW.nodes (gW.nodes.filter eligibleForEmbedding)).filter
            fun n => n.embedding.isSome) :=
  (semantic_recalc_spec sqW embedW gW (by with_unfolding_all decide)).2.1

/-! ## C9 — embedding content and per-node failure isolation -/

lemma updateFirstById_find_other (nid : String) (e : List ℚ) (mid : String)
    (hne : nid ≠ mid) :
    ∀ cur : List NodeData,
      (updateFirstById nid e cur).find? (fun m => m.id == mid)
        = cur.find? (fun m => m.id == mid) := by
  intro cur
  induction cur with
  | nil => rfl
  | cons a t ih =>
    simp only [updateFirstById]
    by_cases ha : (a.id == nid) = true
    · rw [if_pos ha]
      have haid : a.id = nid := by simpa using ha
      have hnm : (a.id == mid) = false := by
        simp [haid, hne]
      simp only [List.find?]
      rw [show ({ a with embedding := some e, isStale := some false } : NodeData).id
          = a.id from rfl, hnm]
    · rw [if_neg ha]
      simp only [List.find?]
      by_cases hm : (a.id == mid) = true
      · rw [hm]
      · rw [Bool.not_eq_true] at hm
        rw [hm, ih]

lemma passUpdates_find_other (embed : String → Option (List ℚ)) (mid : String) :
    ∀ (todo : List NodeData) (cur : List NodeData),
      (∀ u ∈ todo, u.id ≠ mid) →
      (passUpdates embed cur todo).find? (fun m => m.id == mid)
        = cur.find? (fun m => m.id == mid) := by
  intro todo
  induction todo with
  | nil => intro cur _; rfl
  | cons u rest ih =>
    intro cur h
    simp only [passUpdates]
    cases hE : embed (contentToEmbed u) with
    | some e =>
      rw [ih _ (fun v hv => h v (List.mem_cons_of_mem u hv)),
        updateFirstById_find_other u.id e mid (h u (List.mem_cons_self u rest))]
    | none => exact ih _ (fun v hv => h v (List.mem_cons_of_mem u hv))

lemma find?_eq_self_of_nodup (n : NodeData) :
    ∀ cur : List NodeData, (cur.map NodeData.id).Nodup → n ∈ cur →
      cur.find? (fun m => m.id == n.id) = some n := by
  intro cur
  induction cur with
  | nil => intro _ h; cases h
  | cons a t ih =>
    intro hnd hn
    simp only [List.map_cons, List.nodup_cons] at hnd
    simp only [List.find?]
    rcases List.mem_cons.1 hn with rfl | hn
    · rw [show (n.id == n.id) = true by simp]
    · by_cases ha : (a.id == n.id) = true
      · exfalso
        have haid : a.id = n.id := by simpa using ha
        have hmem : n.id ∈ t.map NodeData.id := List.mem_map_of_mem NodeData.id hn
        rw [← haid] at hmem
        exact hnd.1 hmem
      · rw [Bool.not_eq_true] at ha
        rw [ha]
        exact ih hnd.2 hn

lemma updateFirstById_find_self (nid : String) (e : List ℚ) :
    ∀ (cur : List NodeData) (m : NodeData),
      cur.find? (fun x => x.id == nid) = some m →
      (updateFirstById nid e cur).find? (fun x => x.id == nid)
        = some { m with embedding := some e, isStale := some false } := by
  intro cur
  induction cur with
  | nil => intro m h; cases h
  | cons a t ih =>
    intro m h
    simp only [List.find?] at h
    simp only [updateFirstById]
    by_cases ha : (a.id == nid) = true
    · rw [ha] at h
      rw [if_pos ha]
      simp only [List.find?]
      rw [show ({ a with embedding := some e, isStale := some false } : NodeData).id
          = a.id from rfl, ha]
      cases h
      rfl
    · rw [Bool.not_eq_true] at ha
      rw [ha] at h
      rw [if_neg (by simp [ha])]
      simp only [List.find?]
      rw [ha]
      exact ih m h

lemma passUpdates_append (embed : String → Option (List ℚ)) :
    ∀ (t1 t2 : List NodeData) (cur : List NodeData),
      passUpdates embed cur (t1 ++ t2)
        = passUpdates embed (passUpdates embed cur t1) t2 := by
  intro t1
  induction t1 with
  | nil => intro t2 cur; rfl
  | cons u rest ih =>
    intro t2 cur
    simp only [List.cons_append, passUpdates]
    cases embed (contentToEmbed u) with
    | some e => exact ih t2 _
    | none => exact ih t2 _

/-- The settled result of the fan-out, per node: under unique node ids, the
node with `n`'s id in the updated list is `n` itself with the new embedding
applied on success, and `n` unchanged on failure — independent of every other
node's embedder outcome. -/
lemma passUpdates_filter_find (embed : String → Option (List ℚ))
    (cur : List NodeData) (hnd : (cur.map NodeData.id).Nodup)
    (n : NodeData) (hn : n ∈ cur) (he : eligibleForEmbedding n = true) :
    (passUpdates embed cur (cur.filter eligibleForEmbedding)).find?
        (fun m => m.id == n.id)
      = some (match embed (contentToEmbed n) with
          | some e => { n with embedding := some e, isStale := some false }
          | none => n) := by
  have hmemf : n ∈ cur.filter eligibleForEmbedding := List.mem_filter.2 ⟨hn, he⟩
  obtain ⟨l1, l2, hdec⟩ := List.append_of_mem hmemf
  have hndf : ((cur.filter eligibleForEmbedding).map NodeData.id).Nodup :=
    List.Nodup.sublist ((List.filter_sublist cur).map NodeData.id) hnd
  rw [hdec] at hndf
  rw [List.map_append, List.map_cons] at hndf
  rcases List.nodup_append.1 hndf with ⟨-, h2, hdisj⟩
  have hl1 : ∀ u ∈ l1, u.id ≠ n.id := by
    intro u hu heq
    exact hdisj (List.mem_map_of_mem NodeData.id hu) (heq ▸ List.mem_cons_self n.id _)
  have hl2 : ∀ u ∈ l2, u.id ≠ n.id := by
    intro u hu heq
    rw [List.nodup_cons] at h2
    exact h2.1 (heq ▸ List.mem_map_of_mem NodeData.id hu)
  rw [hdec, passUpdates_append]
  have hcur1 : (passUpdates embed cur l1).find? (fun m => m.id == n.id) = some n := by
    rw [passUpdates_find_other embed n.id l1 cur hl1]
    exact find?_eq_self_of_nodup n cur hnd hn
  simp only [passUpdates]
  cases hE : embed (contentToEmbed n) with
  | some e =>
    rw [passUpdates_find_other embed n.id l2 _ hl2]
    exact updateFirstById_find_self n.id e _ n hcur1
  | none =>
    rw [passUpdates_find_other embed n.id l2 _ hl2]
    exact hcur1

/-- C9: for an eligible node the text sent to the Embedder is the cleaned
code when cleaning is non-empty, otherwise the raw code, otherwise the label;
and one node's failed or `null` embedder call affects only that node — it
keeps its previous `embedding` and `isStale` (so it stays eligible) while a
node whose call succeeded gets its new embedding with `isStale = false`,
regardless of the other nodes' outcomes. -/
theorem embedder_isolation (sq : ℚ → ℚ) (embed : String → Option (List ℚ))
    (g : GraphData) (hnd : (g.nodes.map NodeData.id).Nodup)
    (n : NodeData) (hn : n ∈ g.nodes) (he : eligibleForEmbedding n = true) :
    (cleanCodeForEmbedding (n.code.getD "") ≠ "" →
      contentToEmbed n = cleanCodeForEmbedding (n.code.getD ""))
    ∧ (cleanCodeForEmbedding (n.code.getD "") = "" → n.code.getD "" ≠ "" →
      contentToEmbed n = n.code.getD "")
    ∧ (cleanCodeForEmbedding (n.code.getD "") = "" → n.code.getD "" = "" →
      contentToEmbed n = n.label)
    ∧ (∀ e, embed (contentToEmbed n) = some e →
      (recalcSemanticGraph sq embed g).nodes.find? (fun m => m.id == n.id)
        = some { n with embedding := some e, isStale := some false })
    ∧ (embed (contentToEmbed n) = none →
      (recalcSemanticGraph sq embed g).nodes.find? (fun m => m.id == n.id) = some n
      ∧ eligibleForEmbedding n = true) := by
  have hmemf : n ∈ g.nodes.filter eligibleForEmbedding := List.mem_filter.2 ⟨hn, he⟩
  have hne : (g.nodes.filter eligibleForEmbedding).isEmpty ≠ true := by
    intro h
    rw [List.isEmpty_iff.1 h] at hmemf
    cases hmemf
  refine ⟨?_, ?_, ?_, ?_, ?_⟩
  · intro h
    simp only [contentToEmbed, jsStrOr]
    rw [if_neg h]
  · intro h hraw
    simp only [contentToEmbed, jsStrOr]
    rw [if_pos h, if_neg hraw]
  · intro h hraw
    simp only [contentToEmbed, jsStrOr]
    rw [if_pos h, if_pos hraw]
  · intro e hE
    have hup : ((g.nodes.filter eligibleForEmbedding).any
        fun m => (embed (contentToEmbed m)).isSome) = true :=
      List.any_eq_true.2 ⟨n, hmemf, by rw [hE]; rfl⟩
    simp only [recalcSemanticGraph]
    rw [if_neg hne, if_pos hup]
    have := passUpdates_filter_find embed g.nodes hnd n hn he
    rw [hE] at this
    exact this
  · intro hE
    simp only [recalcSemanticGraph]
    rw [if_neg hne]
    by_cases hup : ((g.nodes.filter eligibleForEmbedding).any
        fun m => (embed (contentToEmbed m)).isSome) = true
    · rw [if_pos hup]
      have := passUpdates_filter_find embed g.nodes hnd n hn he
      rw [hE] at this
      exact ⟨this, he⟩
    · rw [if_neg hup]
      exact ⟨find?_eq_self_of_nodup n g.nodes hnd hn, he⟩

/-- C9 witness: in `gW` with an embedder that succeeds only on `fn-b`'s
content, the failed `fn-a` keeps its fields while `fn-b` gets its embedding. -/
theorem embedder_isolation_w :
    (recalcSemanticGraph sqW (fun _ => none) gW).nodes.find? (fun m => m.id == "fn-a")
      = some ⟨"fn-a", .FUNCTION, "a", some .python, some "x()",
          none, none, none, none, none, some true⟩ := by
  have h := (embedder_isolation sqW (fun _ => none) gW (by with_unfolding_all decide)
    ⟨"fn-a", .FUNCTION, "a", some .python, some "x()",
      none, none, none, none, none, some true⟩
    (by with_unfolding_all decide) (by with_unfolding_all decide)).2.2.2.2 rfl
  exact h.1

end Tektite
